import Mathlib

/-!
Verification of `hypothesis.extra.codemods` (file
`src/hypothesis-python/src/hypothesis/extra/codemods.py`).

The module provides `refactor(code)`, which parses a source unit and applies
two libcst codemod passes in order:

  1. `HypothesisFixPositionalKeywonlyArgs.leave_Call` — for calls whose single
     resolved qualified name lies in `kwonly_functions`, rewrite positional
     arguments that align with keyword-only parameters into keyword arguments;
  2. `HypothesisFixComplexMinMagnitude.leave_Arg` — inside calls resolved to
     `hypothesis.strategies.complex_numbers`, rewrite `min_magnitude=None`
     into `min_magnitude=0`.

We embed the call/argument fragment of the libcst tree shallowly: each call
node carries the resolution result of the `QualifiedNameProvider` metadata
(the set of fully-qualified names its callee may denote, modelled as a list),
since name resolution is an external collaborator consumed at its interface.
The live signature lookup (`get_fn` + `inspect.signature`, which imports the
real library) is likewise external: it is modelled as an environment
`sigOf : String → List Param` passed to the transform.
-/

namespace Codemods

/-- Parameter kinds, as in Python's `inspect.Parameter`. -/
inductive ParamKind where
  | positionalOnly
  | positionalOrKeyword
  | varPositional
  | keywordOnly
  | varKeyword
deriving DecidableEq, Repr

/-- A parameter descriptor `{name, kind}` as read off `signature(fn).parameters`,
in declaration order. -/
structure Param where
  name : String
  kind : ParamKind
deriving DecidableEq, Repr

/-- Formatting of the equal sign of a keyword argument (libcst `Arg.equal`):
either the `MaybeSentinel` default, or an explicit `AssignEqual` with its
surrounding whitespace. -/
inductive EqualFmt where
  | maybeDefault
  | assignEqual (before after : String)
deriving DecidableEq, Repr

mutual
/-- The expression fragment of the libcst tree that the codemods inspect:
names, integer literals, opaque atoms (any other expression) and call nodes.
A call node records its function expression, argument list, and the
`QualifiedNameProvider` resolution result for the call (the names the callee
may denote; empty when resolution fails). -/
inductive Expr where
  | name : String → Expr
  | integer : String → Expr
  | atom : String → Expr
  | call : Expr → List Arg → List String → Expr

/-- A libcst `Arg`: optional keyword, equal-sign formatting, star
(`""`, `"*"` or `"**"`), and the value expression. -/
inductive Arg where
  | mk : Option String → EqualFmt → String → Expr → Arg
end

def Arg.keyword : Arg → Option String
  | .mk kw _ _ _ => kw

def Arg.equal : Arg → EqualFmt
  | .mk _ eq _ _ => eq

def Arg.star : Arg → String
  | .mk _ _ st _ => st

def Arg.value : Arg → Expr
  | .mk _ _ _ v => v

def Expr.isCall : Expr → Bool
  | .call _ _ _ => true
  | _ => false

/-- The target registry `HypothesisFixPositionalKeywonlyArgs.kwonly_functions`. -/
def kwonly_functions : List String :=
  [ "hypothesis.target",
    "hypothesis.find",
    "hypothesis.extra.lark.from_lark",
    "hypothesis.extra.numpy.arrays",
    "hypothesis.extra.numpy.array_shapes",
    "hypothesis.extra.numpy.unsigned_integer_dtypes",
    "hypothesis.extra.numpy.integer_dtypes",
    "hypothesis.extra.numpy.floating_dtypes",
    "hypothesis.extra.numpy.complex_number_dtypes",
    "hypothesis.extra.numpy.datetime64_dtypes",
    "hypothesis.extra.numpy.timedelta64_dtypes",
    "hypothesis.extra.numpy.byte_string_dtypes",
    "hypothesis.extra.numpy.unicode_string_dtypes",
    "hypothesis.extra.numpy.array_dtypes",
    "hypothesis.extra.numpy.nested_dtypes",
    "hypothesis.extra.numpy.valid_tuple_axes",
    "hypothesis.extra.numpy.broadcastable_shapes",
    "hypothesis.extra.pandas.indexes",
    "hypothesis.extra.pandas.series",
    "hypothesis.extra.pandas.columns",
    "hypothesis.extra.pandas.data_frames",
    "hypothesis.provisional.domains",
    "hypothesis.stateful.run_state_machine_as_test",
    "hypothesis.stateful.rule",
    "hypothesis.stateful.initialize",
    "hypothesis.strategies.floats",
    "hypothesis.strategies.lists",
    "hypothesis.strategies.sets",
    "hypothesis.strategies.frozensets",
    "hypothesis.strategies.iterables",
    "hypothesis.strategies.dictionaries",
    "hypothesis.strategies.characters",
    "hypothesis.strategies.text",
    "hypothesis.strategies.from_regex",
    "hypothesis.strategies.binary",
    "hypothesis.strategies.fractions",
    "hypothesis.strategies.decimals",
    "hypothesis.strategies.recursive",
    "hypothesis.strategies.complex_numbers",
    "hypothesis.strategies.shared",
    "hypothesis.strategies.uuids",
    "hypothesis.strategies.runner",
    "hypothesis.strategies.functions",
    "hypothesis.strategies.datetimes",
    "hypothesis.strategies.times" ]

/-- `match_qualname(name)`: the metadata matcher succeeds when every resolved
qualified name of the node equals `name` (`all(n.name == name for n in qualnames)`;
vacuously true on the empty collection). -/
def match_qualname (name : String) (qualnames : List String) : Bool :=
  qualnames.all (fun n => n == name)

/-- The shape matcher of `leave_Call`:
`m.Call(func=m.DoesNotMatch(m.Call()), args=[m.Arg(keyword=None), m.ZeroOrMore()])` —
the callee is not itself a call, and the first argument exists and carries no
keyword (its `star` field is not inspected). -/
def posargsShape (func : Expr) (args : List Arg) : Bool :=
  !func.isCall &&
    (match args with
     | [] => false
     | a :: _ => a.keyword.isNone)

/-- The gate of `leave_Call`: the qualname set (`{qn.name for qn in metadata}`,
modelled by `dedup`) is a singleton, it meets `kwonly_functions`, and the call
matches `posargsShape`. -/
def shouldFix (func : Expr) (args : List Arg) (qualnames : List String) : Bool :=
  let qs := qualnames.dedup
  qs.length == 1 && qs.any (fun n => kwonly_functions.contains n) &&
    posargsShape func args

/-- The parameter list used for zipping: `signature(get_fn(*qualnames)).parameters`,
with the `st.floats` special case removing `allow_subnormal`. -/
def paramsFor (sigOf : String → List Param) (qualnames : List String) : List Param :=
  if qualnames.dedup = ["hypothesis.strategies.floats"] then
    (sigOf (qualnames.dedup.headD "")).filter (fun p => p.name ≠ "allow_subnormal")
  else sigOf (qualnames.dedup.headD "")

/-- `cst.AssignEqual(whitespace_before=SimpleWhitespace(""), whitespace_after=SimpleWhitespace(""))`. -/
def assign_nospace : EqualFmt := .assignEqual "" ""

/-- One element of the `newargs` comprehension: keep the argument if it already
has a keyword, is starred, or its aligned parameter is not keyword-only;
otherwise attach the parameter's name as keyword with the no-space equal sign. -/
def fixArg (p : Param) (arg : Arg) : Arg :=
  if arg.keyword.isSome || arg.star ≠ "" || p.kind ≠ ParamKind.keywordOnly then arg
  else Arg.mk (some p.name) assign_nospace arg.star arg.value

/-- The argument list produced by `leave_Call`: unchanged unless the gate
passes and the call supplies no more arguments than there are descriptors, in
which case each argument is zipped against its aligned descriptor. -/
def newArgs (sigOf : String → List Param) (func : Expr) (args : List Arg)
    (qualnames : List String) : List Arg :=
  if shouldFix func args qualnames then
    if args.length > (paramsFor sigOf qualnames).length then args
    else List.zipWith fixArg (paramsFor sigOf qualnames) args
  else args

/-- `HypothesisFixPositionalKeywonlyArgs.leave_Call`, as a function of one
(call) node: it returns the node with the same callee and metadata and the
`newArgs` argument list, and any non-call node unchanged. -/
def leave_Call (sigOf : String → List Param) : Expr → Expr
  | .call func args qualnames => .call func (newArgs sigOf func args qualnames) qualnames
  | e => e

/-- The `m.Name("None")` value matcher: the value is the `Name` node `None`. -/
def isNoneLiteral : Expr → Bool
  | .name s => s == "None"
  | _ => false

/-- `HypothesisFixComplexMinMagnitude.leave_Arg`, as a function of one `Arg`
node: `m.Arg(keyword=m.Name("min_magnitude"), value=m.Name("None"))` has its
value replaced by `cst.Integer("0")`. -/
def leave_Arg : Arg → Arg
  | .mk kw eq st v =>
    if kw == some "min_magnitude" && isNoneLiteral v then
      .mk kw eq st (.integer "0")
    else .mk kw eq st v

/-- The qualified name matched by `HypothesisFixComplexMinMagnitude`. -/
def complex_numbers_qualname : String := "hypothesis.strategies.complex_numbers"

mutual
/-- One `transform_module` traversal of `HypothesisFixPositionalKeywonlyArgs`:
`leave_Call` is applied to every call node, bottom-up (children first), as the
libcst visitor does. -/
def transformA (sigOf : String → List Param) : Expr → Expr
  | .name s => .name s
  | .integer s => .integer s
  | .atom s => .atom s
  | .call f args qns =>
      leave_Call sigOf (.call (transformA sigOf f) (transformArgsA sigOf args) qns)

def transformArgsA (sigOf : String → List Param) : List Arg → List Arg
  | [] => []
  | a :: as => transformArgA sigOf a :: transformArgsA sigOf as

def transformArgA (sigOf : String → List Param) : Arg → Arg
  | .mk kw eq st v => .mk kw eq st (transformA sigOf v)
end

mutual
/-- One `transform_module` traversal of `HypothesisFixComplexMinMagnitude`:
`leave_Arg` fires on every `Arg` node that lies inside a call matching
`match_qualname complex_numbers_qualname` (the `m.call_if_inside` decorator:
the node or any ancestor matches). `inside` records whether such an enclosing
call has been seen. -/
def transformB (inside : Bool) : Expr → Expr
  | .name s => .name s
  | .integer s => .integer s
  | .atom s => .atom s
  | .call f args qns =>
      .call (transformB (inside || match_qualname complex_numbers_qualname qns) f)
        (transformArgsB (inside || match_qualname complex_numbers_qualname qns) args)
        qns

def transformArgsB (inside : Bool) : List Arg → List Arg
  | [] => []
  | a :: as => transformArgB inside a :: transformArgsB inside as

def transformArgB (inside : Bool) : Arg → Arg
  | .mk kw eq st v =>
      if inside then leave_Arg (.mk kw eq st (transformB inside v))
      else .mk kw eq st (transformB inside v)
end

/-- `refactor(code)`: parse, apply the `HypothesisFixPositionalKeywonlyArgs`
traversal, then the `HypothesisFixComplexMinMagnitude` traversal, and print.
The parser/printer round-trip is the external lossless collaborator, so a
source unit is modelled as its list of top-level expressions. -/
def refactor (sigOf : String → List Param) (m : List Expr) : List Expr :=
  (m.map (transformA sigOf)).map (transformB false)

/-- A signature environment for the concrete test target of the spec:
`(a, b, *, max_denominator)`, registered under `hypothesis.strategies.fractions`
(the docstring example `st.fractions(0, 1, 9) -> st.fractions(0, 1, max_denominator=9)`). -/
def fractionsSig : String → List Param := fun n =>
  if n = "hypothesis.strategies.fractions" then
    [⟨"a", .positionalOrKeyword⟩, ⟨"b", .positionalOrKeyword⟩,
     ⟨"max_denominator", .keywordOnly⟩]
  else []

/-- A signature environment with no known signatures. -/
def emptySig : String → List Param := fun _ => []

/-- The argument lists that can appear in a call after the first traversal:
element by element, an argument whose value is the `transformA`-image of the
value of the corresponding original argument (with truncation allowed). -/
inductive ValImage (sigOf : String → List Param) : List Arg → List Arg → Prop where
  | nil : ∀ as, ValImage sigOf as []
  | cons : ∀ (a : Arg) (rest : List Arg) (kw : Option String) (eq : EqualFmt)
      (st : String) (bt : List Arg), ValImage sigOf rest bt →
      ValImage sigOf (a :: rest) (Arg.mk kw eq st (transformA sigOf a.value) :: bt)

mutual
/-- Neither rule matches anywhere in `e`: every call node in `e` is a fixpoint
of `leave_Call` and, wherever the `complex_numbers` scope flag is (or becomes)
set, every argument is a fixpoint of `leave_Arg`. -/
def exprClean (sigOf : String → List Param) (inside : Bool) : Expr → Prop
  | .name _ => True
  | .integer _ => True
  | .atom _ => True
  | .call f args qns =>
      newArgs sigOf f args qns = args ∧
      exprClean sigOf (inside || match_qualname complex_numbers_qualname qns) f ∧
      argsClean sigOf (inside || match_qualname complex_numbers_qualname qns) args

def argsClean (sigOf : String → List Param) (inside : Bool) : List Arg → Prop
  | [] => True
  | a :: rest => argClean sigOf inside a ∧ argsClean sigOf inside rest

def argClean (sigOf : String → List Param) (inside : Bool) : Arg → Prop
  | .mk kw eq st v =>
      (inside = true → leave_Arg (.mk kw eq st v) = .mk kw eq st v) ∧
      exprClean sigOf inside v
end

/-! ### Concrete fixtures used by the claims -/

/-- Signature environment registering `hypothesis.strategies.complex_numbers`
with a sole keyword-only parameter `min_magnitude`. -/
def complexSig : String → List Param := fun n =>
  if n = "hypothesis.strategies.complex_numbers" then
    [⟨"min_magnitude", .keywordOnly⟩]
  else []

/-- Signature environment for `hypothesis.target`: `(observation, *, label)`. -/
def targetSig : String → List Param := fun n =>
  if n = "hypothesis.target" then
    [⟨"observation", .positionalOrKeyword⟩, ⟨"label", .keywordOnly⟩]
  else []

def fracQns : List String := ["hypothesis.strategies.fractions"]

def fracArgs : List Arg :=
  [Arg.mk none .maybeDefault "" (.integer "0"),
   Arg.mk none .maybeDefault "" (.integer "1"),
   Arg.mk none .maybeDefault "" (.integer "9")]

def fracRes : List Arg :=
  [Arg.mk none .maybeDefault "" (.integer "0"),
   Arg.mk none .maybeDefault "" (.integer "1"),
   Arg.mk (some "max_denominator") assign_nospace "" (.integer "9")]

/-- `target(None)` resolved to the complex-numbers entry point. -/
def c4in : Expr :=
  .call (.name "target") [Arg.mk none .maybeDefault "" (.name "None")]
    [complex_numbers_qualname]

/-- The intermediate form after the positional rule: `target(min_magnitude=None)`. -/
def c4mid : Expr :=
  .call (.name "target")
    [Arg.mk (some "min_magnitude") assign_nospace "" (.name "None")]
    [complex_numbers_qualname]

/-- The final form after the sentinel rule: `target(min_magnitude=0)`. -/
def c4out : Expr :=
  .call (.name "target")
    [Arg.mk (some "min_magnitude") assign_nospace "" (.integer "0")]
    [complex_numbers_qualname]

def c5None : Expr :=
  .call (.name "complex_numbers")
    [Arg.mk (some "min_magnitude") .maybeDefault "" (.name "None")]
    [complex_numbers_qualname]

def c5Zero : Expr :=
  .call (.name "complex_numbers")
    [Arg.mk (some "min_magnitude") .maybeDefault "" (.integer "0")]
    [complex_numbers_qualname]

def c5One : Expr :=
  .call (.name "complex_numbers")
    [Arg.mk (some "min_magnitude") .maybeDefault "" (.integer "1")]
    [complex_numbers_qualname]

/-- A call whose resolution result is the empty set, carrying a
`min_magnitude=None` argument. -/
def c8in : Expr :=
  .call (.name "f") [Arg.mk (some "min_magnitude") .maybeDefault "" (.name "None")] []

def c8out : Expr :=
  .call (.name "f") [Arg.mk (some "min_magnitude") .maybeDefault "" (.integer "0")] []

/-- `target(*xs, 9)` against `(observation, *, label)`: the first argument is
a splat, yet the call passes the rule's gate. -/
def c7call : Expr :=
  .call (.name "target")
    [Arg.mk none .maybeDefault "*" (.name "xs"),
     Arg.mk none .maybeDefault "" (.integer "9")]
    ["hypothesis.target"]

def c7res : Expr :=
  .call (.name "target")
    [Arg.mk none .maybeDefault "*" (.name "xs"),
     Arg.mk (some "label") assign_nospace "" (.integer "9")]
    ["hypothesis.target"]

/-- A whitelisted call all of whose arguments are already keyworded. -/
def c9call : Expr :=
  .call (.name "fractions")
    [Arg.mk (some "max_denominator") .maybeDefault "" (.integer "9")]
    ["hypothesis.strategies.fractions"]

/-- An expression with no call inside (a leaf of the call structure). -/
def leafExpr : Expr → Bool
  | .call _ _ _ => false
  | _ => true

/-- A call name resolving to two distinct qualified names (conditional import). -/
def ambQns : List String := ["pkg.f", "other.f"]

/-- An ambiguously-resolved call carrying `min_magnitude=None`. -/
def c3inner : Expr :=
  .call (.name "amb")
    [Arg.mk (some "min_magnitude") .maybeDefault "" (.name "None")] ambQns

def c3innerChanged : Expr :=
  .call (.name "amb")
    [Arg.mk (some "min_magnitude") .maybeDefault "" (.integer "0")] ambQns

/-- The ambiguous call nested inside a call resolved to `complex_numbers`. -/
def c3outer : Expr :=
  .call (.name "complex_numbers") [Arg.mk (some "z") .maybeDefault "" c3inner]
    [complex_numbers_qualname]

def c3outerChanged : Expr :=
  .call (.name "complex_numbers")
    [Arg.mk (some "z") .maybeDefault "" c3innerChanged]
    [complex_numbers_qualname]

/-- The current `floats` signature: `allow_subnormal` sits between the old
leading parameters and the old trailing ones. -/
def preFloats : List Param :=
  [⟨"min_value", .positionalOrKeyword⟩, ⟨"max_value", .positionalOrKeyword⟩,
   ⟨"allow_nan", .keywordOnly⟩, ⟨"allow_infinity", .keywordOnly⟩]

def postFloats : List Param :=
  [⟨"width", .keywordOnly⟩, ⟨"exclude_min", .keywordOnly⟩,
   ⟨"exclude_max", .keywordOnly⟩]

def floatsSig : String → List Param := fun n =>
  if n = "hypothesis.strategies.floats" then
    preFloats ++ ⟨"allow_subnormal", ParamKind.keywordOnly⟩ :: postFloats
  else []

/-- `floats(0, 1, None, False, 32)`. -/
def floatsArgs : List Arg :=
  [Arg.mk none .maybeDefault "" (.integer "0"),
   Arg.mk none .maybeDefault "" (.integer "1"),
   Arg.mk none .maybeDefault "" (.name "None"),
   Arg.mk none .maybeDefault "" (.name "False"),
   Arg.mk none .maybeDefault "" (.integer "32")]

/-! ### Basic facts about the argument rewrite of `leave_Call` -/

theorem fixArg_star (p : Param) (a : Arg) : (fixArg p a).star = a.star := by
  cases a with
  | mk kw eq st v => unfold fixArg; split <;> rfl

theorem fixArg_value (p : Param) (a : Arg) : (fixArg p a).value = a.value := by
  cases a with
  | mk kw eq st v => unfold fixArg; split <;> rfl

theorem fixArg_idem (p : Param) (a : Arg) : fixArg p (fixArg p a) = fixArg p a := by
  cases a with
  | mk kw eq st v =>
    unfold fixArg
    split
    · rfl
    · simp [Arg.keyword, Arg.star]

theorem zipWith_fixArg_idem (ps : List Param) (as : List Arg) :
    List.zipWith fixArg ps (List.zipWith fixArg ps as) = List.zipWith fixArg ps as := by
  induction ps generalizing as with
  | nil => simp
  | cons p pt ih =>
    cases as with
    | nil => simp
    | cons a rest => simp [List.zipWith, fixArg_idem, ih]

theorem transformArgA_fixArg (sigOf : String → List Param) (p : Param) (a : Arg) :
    transformArgA sigOf (fixArg p a) = fixArg p (transformArgA sigOf a) := by
  cases a with
  | mk kw eq st v =>
    unfold fixArg
    simp only [Arg.keyword, Arg.star, Arg.value, transformArgA]
    split
    · rfl
    · rfl

theorem transformArgsA_zipWith (sigOf : String → List Param) (ps : List Param) (as : List Arg) :
    transformArgsA sigOf (List.zipWith fixArg ps as)
      = List.zipWith fixArg ps (transformArgsA sigOf as) := by
  induction ps generalizing as with
  | nil => simp [transformArgsA]
  | cons p pt ih =>
    cases as with
    | nil => simp [transformArgsA]
    | cons a rest => simp [List.zipWith, transformArgsA, transformArgA_fixArg, ih]

theorem transformArgA_keyword (sigOf : String → List Param) (a : Arg) :
    (transformArgA sigOf a).keyword = a.keyword := by
  cases a with
  | mk kw eq st v => rfl

/-! ### Node-level idempotence of `leave_Call` -/

theorem shouldFix_congr (f : Expr) (qns : List String) (a b : Arg)
    (rest rest2 : List Arg) (h : a.keyword.isNone = b.keyword.isNone) :
    shouldFix f (a :: rest) qns = shouldFix f (b :: rest2) qns := by
  simp [shouldFix, posargsShape, h]

theorem newArgs_idem (sigOf : String → List Param) (f : Expr) (as : List Arg)
    (qns : List String) :
    newArgs sigOf f (newArgs sigOf f as qns) qns = newArgs sigOf f as qns := by
  by_cases hg : shouldFix f as qns = true
  · by_cases ha : as.length > (paramsFor sigOf qns).length
    · simp [newArgs, hg, ha]
    · -- the rewrite branch: the new argument list is the zip
      have hinner : newArgs sigOf f as qns
          = List.zipWith fixArg (paramsFor sigOf qns) as := by
        rw [newArgs, if_pos hg, if_neg ha]
      have hcons : ∃ a rest, as = a :: rest ∧ a.keyword = none := by
        cases as with
        | nil => exfalso; simp [shouldFix, posargsShape] at hg
        | cons a rest =>
          refine ⟨a, rest, rfl, ?_⟩
          simp only [shouldFix, posargsShape, Bool.and_eq_true] at hg
          exact Option.isNone_iff_eq_none.mp hg.2.2
      obtain ⟨a, rest, has, hkw⟩ := hcons
      subst has
      have hps : ∃ p pt, paramsFor sigOf qns = p :: pt := by
        cases hp : paramsFor sigOf qns with
        | nil => rw [hp] at ha; simp at ha
        | cons p pt => exact ⟨p, pt, rfl⟩
      obtain ⟨p, pt, hp⟩ := hps
      rw [hinner, hp]
      simp only [List.zipWith]
      by_cases hc : (a.keyword.isSome || decide (a.star ≠ "")
          || decide (p.kind ≠ ParamKind.keywordOnly)) = true
      · -- the head argument is left untouched, so the gate passes again
        have hfix : fixArg p a = a := by rw [fixArg, if_pos hc]
        rw [hfix]
        have hg2 : shouldFix f (a :: List.zipWith fixArg pt rest) qns = true := by
          rw [shouldFix_congr f qns a a _ rest rfl]
          exact hg
        have ha2 : ¬ (a :: List.zipWith fixArg pt rest).length
            > (paramsFor sigOf qns).length := by
          rw [hp]
          rw [hp] at ha
          simp only [List.length_cons, List.length_zipWith] at ha ⊢
          omega
        rw [newArgs, if_pos hg2, if_neg ha2, hp]
        simp only [List.zipWith, hfix, zipWith_fixArg_idem]
      · -- the head argument gains a keyword, so the gate now fails
        have hfix : fixArg p a = Arg.mk (some p.name) assign_nospace a.star a.value := by
          rw [fixArg, if_neg hc]
        have hg2 : shouldFix f (fixArg p a :: List.zipWith fixArg pt rest) qns = false := by
          rw [hfix]
          simp [shouldFix, posargsShape, Arg.keyword]
        rw [newArgs, hg2]
        simp
  · simp [newArgs, hg]

theorem leave_Call_idem (sigOf : String → List Param) (e : Expr) :
    leave_Call sigOf (leave_Call sigOf e) = leave_Call sigOf e := by
  cases e with
  | call f as qns => simp [leave_Call, newArgs_idem]
  | name s => rfl
  | integer s => rfl
  | atom s => rfl

/-! ### Idempotence of the first traversal -/

theorem transformArgsA_newArgs (sigOf : String → List Param) (f : Expr) (bs : List Arg)
    (qns : List String) (hbs : transformArgsA sigOf bs = bs) :
    transformArgsA sigOf (newArgs sigOf f bs qns) = newArgs sigOf f bs qns := by
  unfold newArgs
  split
  · split
    · exact hbs
    · rw [transformArgsA_zipWith, hbs]
  · exact hbs

mutual
theorem transformA_idem (sigOf : String → List Param) :
    (e : Expr) → transformA sigOf (transformA sigOf e) = transformA sigOf e
  | .name s => rfl
  | .integer s => rfl
  | .atom s => rfl
  | .call f args qns => by
      have hf := transformA_idem sigOf f
      have hargs := transformArgsA_idem sigOf args
      simp only [transformA, leave_Call]
      rw [hf, transformArgsA_newArgs sigOf _ _ _ hargs, newArgs_idem]

theorem transformArgsA_idem (sigOf : String → List Param) :
    (as : List Arg) → transformArgsA sigOf (transformArgsA sigOf as) = transformArgsA sigOf as
  | [] => rfl
  | a :: rest => by
      simp only [transformArgsA]
      rw [transformArgA_idem sigOf a, transformArgsA_idem sigOf rest]

theorem transformArgA_idem (sigOf : String → List Param) :
    (a : Arg) → transformArgA sigOf (transformArgA sigOf a) = transformArgA sigOf a
  | .mk kw eq st v => by
      simp only [transformArgA]
      rw [transformA_idem sigOf v]
end

/-! ### Facts about `leave_Arg` and the second traversal -/

theorem leave_Arg_keyword (a : Arg) : (leave_Arg a).keyword = a.keyword := by
  cases a with
  | mk kw eq st v => simp only [leave_Arg]; split <;> rfl

theorem leave_Arg_idem (a : Arg) : leave_Arg (leave_Arg a) = leave_Arg a := by
  cases a with
  | mk kw eq st v =>
    rw [leave_Arg]
    split
    · simp [leave_Arg]
    · rename_i h
      rw [leave_Arg, if_neg h]

theorem transformB_isCall (ins : Bool) (e : Expr) :
    (transformB ins e).isCall = e.isCall := by
  cases e <;> simp [transformB, Expr.isCall]

/-- Any `Arg` transformed by the second traversal keeps its keyword, equal sign
and star; only the value can change. -/
theorem transformArgB_shape (ins : Bool) (kw : Option String) (eq : EqualFmt)
    (st : String) (v : Expr) :
    ∃ v2, transformArgB ins (Arg.mk kw eq st v) = Arg.mk kw eq st v2 := by
  unfold transformArgB
  split
  · rw [leave_Arg]
    split
    · exact ⟨.integer "0", rfl⟩
    · exact ⟨transformB ins v, rfl⟩
  · exact ⟨transformB ins v, rfl⟩

theorem transformArgB_keyword (ins : Bool) (a : Arg) :
    (transformArgB ins a).keyword = a.keyword := by
  cases a with
  | mk kw eq st v =>
    obtain ⟨v2, hv2⟩ := transformArgB_shape ins kw eq st v
    rw [hv2]
    rfl

theorem length_transformArgsB (ins : Bool) (as : List Arg) :
    (transformArgsB ins as).length = as.length := by
  induction as with
  | nil => rfl
  | cons a rest ih => simp [transformArgsB, ih]

theorem posargsShape_transformB (ins : Bool) (f : Expr) (as : List Arg) :
    posargsShape (transformB ins f) (transformArgsB ins as) = posargsShape f as := by
  cases as with
  | nil => simp [posargsShape, transformArgsB, transformB_isCall]
  | cons a rest =>
    simp [posargsShape, transformArgsB, transformB_isCall, transformArgB_keyword]

theorem shouldFix_transformB (ins : Bool) (f : Expr) (as : List Arg) (qns : List String) :
    shouldFix (transformB ins f) (transformArgsB ins as) qns = shouldFix f as qns := by
  simp only [shouldFix]
  rw [posargsShape_transformB]

theorem fixArg_transformArgB (ins : Bool) (p : Param) (a : Arg)
    (h : fixArg p a = a) :
    fixArg p (transformArgB ins a) = transformArgB ins a := by
  cases a with
  | mk kw eq st v =>
    by_cases hc : (kw.isSome || decide (st ≠ "")
        || decide (p.kind ≠ ParamKind.keywordOnly)) = true
    · obtain ⟨v2, hv2⟩ := transformArgB_shape ins kw eq st v
      rw [hv2]
      simp only [fixArg, Arg.keyword, Arg.star]
      rw [if_pos hc]
    · exfalso
      simp only [fixArg, Arg.keyword, Arg.star, Arg.value] at h
      rw [if_neg hc] at h
      injection h with h1 h2 h3 h4
      simp only [Bool.or_eq_true, not_or] at hc
      rw [← h1] at hc
      simp at hc

theorem zipWith_fixArg_transformArgsB (ins : Bool) (ps : List Param) (as : List Arg)
    (h : List.zipWith fixArg ps as = as) :
    List.zipWith fixArg ps (transformArgsB ins as) = transformArgsB ins as := by
  induction ps generalizing as with
  | nil =>
    have : as = [] := by simpa using h.symm
    subst this
    rfl
  | cons p pt ih =>
    cases as with
    | nil => rfl
    | cons a rest =>
      simp only [List.zipWith] at h
      injection h with h1 h2
      simp only [transformArgsB, List.zipWith]
      rw [fixArg_transformArgB ins p a h1, ih rest h2]

theorem newArgs_transformB (sigOf : String → List Param) (ins : Bool) (f : Expr)
    (as : List Arg) (qns : List String) (h : newArgs sigOf f as qns = as) :
    newArgs sigOf (transformB ins f) (transformArgsB ins as) qns
      = transformArgsB ins as := by
  unfold newArgs at h ⊢
  rw [shouldFix_transformB, length_transformArgsB]
  split
  · rename_i hg
    rw [if_pos hg] at h
    split
    · rfl
    · rename_i ha
      rw [if_neg ha] at h
      exact zipWith_fixArg_transformArgsB ins _ as h
  · rfl

/-! ### Idempotence of the second traversal -/

mutual
theorem transformB_idem : (e : Expr) → (ins : Bool) →
    transformB ins (transformB ins e) = transformB ins e
  | .name s, ins => rfl
  | .integer s, ins => rfl
  | .atom s, ins => rfl
  | .call f args qns, ins => by
      simp only [transformB]
      rw [transformB_idem f _, transformArgsB_idem args _]

theorem transformArgsB_idem : (as : List Arg) → (ins : Bool) →
    transformArgsB ins (transformArgsB ins as) = transformArgsB ins as
  | [], ins => rfl
  | a :: rest, ins => by
      simp only [transformArgsB]
      rw [transformArgB_idem a ins, transformArgsB_idem rest ins]

theorem transformArgB_idem : (a : Arg) → (ins : Bool) →
    transformArgB ins (transformArgB ins a) = transformArgB ins a
  | .mk kw eq st v, ins => by
      cases ins with
      | false =>
          simp only [transformArgB, if_neg (by simp : ¬ (false = true))]
          rw [transformB_idem v false]
      | true =>
          by_cases hcond : (kw == some "min_magnitude"
              && isNoneLiteral (transformB true v)) = true
          · have h1 : transformArgB true (Arg.mk kw eq st v)
                = Arg.mk kw eq st (.integer "0") := by
              simp only [transformArgB, if_pos (rfl : true = true), leave_Arg]
              rw [if_pos hcond]
              simp
            rw [h1]
            simp only [transformArgB, if_pos (rfl : true = true), transformB, leave_Arg]
            simp [isNoneLiteral]
          · have h1 : transformArgB true (Arg.mk kw eq st v)
                = Arg.mk kw eq st (transformB true v) := by
              simp only [transformArgB, if_pos (rfl : true = true), leave_Arg]
              rw [if_neg hcond]
              simp
            rw [h1]
            simp only [transformArgB, if_pos (rfl : true = true)]
            rw [transformB_idem v true, leave_Arg, if_neg hcond]
            simp
end

/-! ### The first traversal is stable on the output of the second -/

theorem valImage_transformArgsA (sigOf : String → List Param) (as : List Arg) :
    ValImage sigOf as (transformArgsA sigOf as) := by
  induction as with
  | nil => exact .nil []
  | cons a rest ih =>
    cases a with
    | mk kw eq st v =>
      simp only [transformArgsA, transformArgA]
      exact .cons (.mk kw eq st v) rest kw eq st _ ih

theorem valImage_zipWith (sigOf : String → List Param) (ps : List Param) (as : List Arg) :
    ValImage sigOf as (List.zipWith fixArg ps (transformArgsA sigOf as)) := by
  induction as generalizing ps with
  | nil => simp only [transformArgsA, List.zipWith_nil_right]; exact .nil []
  | cons a rest ih =>
    cases ps with
    | nil => exact .nil _
    | cons p pt =>
      cases a with
      | mk kw eq st v =>
        simp only [transformArgsA, transformArgA, List.zipWith]
        unfold fixArg
        split
        · exact .cons (.mk kw eq st v) rest kw eq st _ (ih pt)
        · exact .cons (.mk kw eq st v) rest (some p.name) assign_nospace _ _ (ih pt)

theorem valImage_newArgs (sigOf : String → List Param) (f : Expr) (as : List Arg)
    (qns : List String) :
    ValImage sigOf as (newArgs sigOf f (transformArgsA sigOf as) qns) := by
  unfold newArgs
  split
  · split
    · exact valImage_transformArgsA sigOf as
    · exact valImage_zipWith sigOf _ as
  · exact valImage_transformArgsA sigOf as

theorem transformArgB_cases (ins : Bool) (kw : Option String) (eq : EqualFmt)
    (st : String) (v : Expr) :
    transformArgB ins (Arg.mk kw eq st v) = Arg.mk kw eq st (transformB ins v)
    ∨ transformArgB ins (Arg.mk kw eq st v) = Arg.mk kw eq st (.integer "0") := by
  unfold transformArgB
  split
  · rw [leave_Arg]
    split
    · exact Or.inr rfl
    · exact Or.inl rfl
  · exact Or.inl rfl

mutual
theorem transformA_transformB (sigOf : String → List Param) :
    (e : Expr) → (ins : Bool) →
    transformA sigOf (transformB ins (transformA sigOf e))
      = transformB ins (transformA sigOf e)
  | .name s, ins => rfl
  | .integer s, ins => rfl
  | .atom s, ins => rfl
  | .call f args qns, ins => by
      simp only [transformA, leave_Call, transformB]
      rw [transformA_transformB sigOf f _]
      rw [transformArgsA_transformArgsB sigOf args _ _ (valImage_newArgs sigOf _ args qns)]
      rw [newArgs_transformB sigOf _ _ _ _ (newArgs_idem sigOf _ _ qns)]

theorem transformArgsA_transformArgsB (sigOf : String → List Param) :
    (as : List Arg) → (ins : Bool) → (bs : List Arg) → ValImage sigOf as bs →
    transformArgsA sigOf (transformArgsB ins bs) = transformArgsB ins bs
  | as, ins, [], _ => rfl
  | _, ins, b :: bt, h => by
      cases h with
      | cons a rest kw eq st bt hbt =>
        cases a with
        | mk kw2 eq2 st2 v2 =>
          simp only [transformArgsB, transformArgsA]
          rw [transformArgsA_transformArgsB sigOf rest ins bt hbt]
          rcases transformArgB_cases ins kw eq st
              (transformA sigOf (Arg.value (Arg.mk kw2 eq2 st2 v2))) with hc | hc
          · rw [hc]
            simp only [transformArgA, Arg.value]
            rw [transformA_transformB sigOf v2 ins]
          · rw [hc]
            simp only [transformArgA, transformA]
end

/-! ### Idempotence of the full pipeline -/

theorem refactor_eq_map (sigOf : String → List Param) (m : List Expr) :
    refactor sigOf m = m.map (fun e => transformB false (transformA sigOf e)) := by
  unfold refactor
  rw [List.map_map]
  rfl

theorem refactor_pointwise_idem (sigOf : String → List Param) (e : Expr) :
    transformB false (transformA sigOf (transformB false (transformA sigOf e)))
      = transformB false (transformA sigOf e) := by
  rw [transformA_transformB sigOf e false, transformB_idem]

theorem refactor_cons (sigOf : String → List Param) (e : Expr) (m : List Expr) :
    refactor sigOf (e :: m)
      = transformB false (transformA sigOf e) :: refactor sigOf m := rfl

/-! ### The frame property: where no rule matches, the pipeline is the identity -/

mutual
theorem exprClean_transform (sigOf : String → List Param) :
    (e : Expr) → (ins : Bool) → exprClean sigOf ins e →
    transformA sigOf e = e ∧ transformB ins e = e
  | .name s, ins, _ => ⟨rfl, rfl⟩
  | .integer s, ins, _ => ⟨rfl, rfl⟩
  | .atom s, ins, _ => ⟨rfl, rfl⟩
  | .call f args qns, ins, h => by
      obtain ⟨hargsEq, hf, hargs⟩ := h
      obtain ⟨hfA, hfB⟩ := exprClean_transform sigOf f _ hf
      obtain ⟨hargsA, hargsB⟩ := argsClean_transform sigOf args _ hargs
      constructor
      · simp only [transformA, leave_Call]
        rw [hfA, hargsA, hargsEq]
      · simp only [transformB]
        rw [hfB, hargsB]

theorem argsClean_transform (sigOf : String → List Param) :
    (as : List Arg) → (ins : Bool) → argsClean sigOf ins as →
    transformArgsA sigOf as = as ∧ transformArgsB ins as = as
  | [], ins, _ => ⟨rfl, rfl⟩
  | a :: rest, ins, h => by
      obtain ⟨ha, hrest⟩ := h
      obtain ⟨haA, haB⟩ := argClean_transform sigOf a ins ha
      obtain ⟨hrestA, hrestB⟩ := argsClean_transform sigOf rest ins hrest
      constructor
      · simp only [transformArgsA]
        rw [haA, hrestA]
      · simp only [transformArgsB]
        rw [haB, hrestB]

theorem argClean_transform (sigOf : String → List Param) :
    (a : Arg) → (ins : Bool) → argClean sigOf ins a →
    transformArgA sigOf a = a ∧ transformArgB ins a = a
  | .mk kw eq st v, ins, h => by
      obtain ⟨hB, hv⟩ := h
      obtain ⟨hvA, hvB⟩ := exprClean_transform sigOf v ins hv
      constructor
      · simp only [transformArgA]
        rw [hvA]
      · cases ins with
        | false =>
            simp only [transformArgB, if_neg (by simp : ¬ (false = true))]
            rw [hvB]
        | true =>
            simp only [transformArgB, if_pos (rfl : true = true)]
            rw [hvB, hB rfl]
            simp
end

/-! ### The claims -/

/-- C2: `refactor` is idempotent — for every source unit `s` that parses,
`refactor (refactor s) = refactor s`. -/
theorem claim_C2 (sigOf : String → List Param) (m : List Expr) :
    refactor sigOf (refactor sigOf m) = refactor sigOf m := by
  induction m with
  | nil => rfl
  | cons e rest ih =>
      rw [refactor_cons sigOf e rest, refactor_cons, refactor_pointwise_idem, ih]

/-- C4: the pipeline applies the positional-to-keyword rule before the sentinel
rule in one `refactor` invocation: `target(None)`, whose sole (keyword-only)
parameter is `min_magnitude`, becomes `target(min_magnitude=None)` under the
first rule, then `target(min_magnitude=0)` under the second, within a single
`refactor` call. -/
theorem claim_C4 :
    (∀ (sigOf : String → List Param) (m : List Expr),
        refactor sigOf m = (m.map (transformA sigOf)).map (transformB false)) ∧
    transformA complexSig c4in = c4mid ∧
    transformB false c4mid = c4out ∧
    refactor complexSig [c4in] = [c4out] :=
  ⟨fun _ _ => rfl, rfl, rfl, rfl⟩

/-- C5: inside a call resolved unambiguously to the complex-numbers entry
point, an argument `min_magnitude=None` is rewritten to `min_magnitude=0`,
while the same argument with any value other than the literal `None` (for
instance `1`) is left unchanged. -/
theorem claim_C5 :
    (∀ (eq : EqualFmt) (st : String),
        leave_Arg (.mk (some "min_magnitude") eq st (.name "None"))
          = .mk (some "min_magnitude") eq st (.integer "0")) ∧
    (∀ (eq : EqualFmt) (st : String) (v : Expr), v ≠ .name "None" →
        leave_Arg (.mk (some "min_magnitude") eq st v)
          = .mk (some "min_magnitude") eq st v) ∧
    refactor emptySig [c5None] = [c5Zero] ∧
    refactor emptySig [c5One] = [c5One] := by
  refine ⟨?_, ?_, rfl, rfl⟩
  · intro eq st
    simp [leave_Arg, isNoneLiteral]
  · intro eq st v hv
    have hnl : isNoneLiteral v = false := by
      cases v with
      | name s =>
          simp only [isNoneLiteral, beq_eq_false_iff_ne, ne_eq]
          intro hs
          exact hv (by rw [hs])
      | integer s => rfl
      | atom s => rfl
      | call f as qns => rfl
    simp [leave_Arg, hnl]

/-- Witness for C5: the non-`None` case at the concrete value `1`. -/
theorem claim_C5_witness :
    (Expr.integer "1" ≠ Expr.name "None") ∧
    leave_Arg (.mk (some "min_magnitude") .maybeDefault "" (.integer "1"))
      = .mk (some "min_magnitude") .maybeDefault "" (.integer "1") :=
  ⟨by simp, claim_C5.2.1 .maybeDefault "" (.integer "1") (by simp)⟩

/-- C8 counterexample: on a call whose resolution result is empty, the
sentinel rule's qualified-name matcher is vacuously true, so `refactor` does
transform the call — the claim that every rule treats the empty set as
"do not transform" fails. -/
theorem claim_C8_counterexample :
    refactor emptySig [c8in] = [c8out] ∧ c8out ≠ c8in := by
  refine ⟨rfl, ?_⟩
  simp [c8in, c8out]

/-- C8 (amended): when name resolution returns the empty set, the
positional-to-keyword rule does leave the call unchanged, but the sentinel
rule's matcher (`all` over the resolved names) is vacuously true on the empty
set, so it does transform a `min_magnitude=None` argument of such a call. -/
theorem claim_C8 :
    (∀ (sigOf : String → List Param) (f : Expr) (args : List Arg),
        leave_Call sigOf (.call f args []) = .call f args []) ∧
    match_qualname complex_numbers_qualname [] = true ∧
    refactor emptySig [c8in] = [c8out] := by
  refine ⟨?_, rfl, rfl⟩
  intro sigOf f args
  simp [leave_Call, newArgs, shouldFix]

/-- C10: the positional-to-keyword rule never rewrites a call whose callee
expression is itself a call expression; such calls are returned unchanged. -/
theorem claim_C10 (sigOf : String → List Param) (f : Expr) (args : List Arg)
    (qns : List String) (h : f.isCall = true) :
    leave_Call sigOf (.call f args qns) = .call f args qns := by
  have hshape : posargsShape f args = false := by
    simp [posargsShape, h]
  have hsf : shouldFix f args qns = false := by
    simp [shouldFix, hshape]
  simp [leave_Call, newArgs, hsf]

/-- Witness for C10: a call `g(...)(1)` whose callee is itself a call and
which resolves to exactly one registry member is left unchanged. -/
theorem claim_C10_witness :
    (Expr.call (.name "g") [] ["hypothesis.strategies.fractions"]).isCall = true ∧
    leave_Call fractionsSig
        (.call (Expr.call (.name "g") [] ["hypothesis.strategies.fractions"])
          [Arg.mk none .maybeDefault "" (.integer "1")]
          ["hypothesis.strategies.fractions"])
      = .call (Expr.call (.name "g") [] ["hypothesis.strategies.fractions"])
          [Arg.mk none .maybeDefault "" (.integer "1")]
          ["hypothesis.strategies.fractions"] :=
  ⟨rfl, claim_C10 fractionsSig _ _ _ rfl⟩

/-- C7 counterexample: a call whose first argument is a splat (it carries no
keyword, so the matcher `m.Arg(keyword=None)` accepts it) is rewritten by the
positional-to-keyword rule, contradicting the claim that such calls are never
rewritten. -/
theorem claim_C7_counterexample :
    (Arg.mk none .maybeDefault "*" (Expr.name "xs")).star = "*" ∧
    leave_Call targetSig c7call ≠ c7call := by
  refine ⟨rfl, ?_⟩
  have h : leave_Call targetSig c7call = c7res := rfl
  rw [h]
  simp [c7res, c7call]

/-- C7 (amended): the positional-to-keyword rule abstains unless the call's
argument list begins with an argument that carries no keyword; the matcher
does not inspect the star, so a leading splat does not cause abstention and a
later positional argument may still be rewritten. -/
theorem claim_C7 (sigOf : String → List Param) :
    (∀ (f : Expr) (qns : List String),
        leave_Call sigOf (.call f [] qns) = .call f [] qns) ∧
    (∀ (f : Expr) (a : Arg) (rest : List Arg) (qns : List String),
        a.keyword.isSome = true →
        leave_Call sigOf (.call f (a :: rest) qns) = .call f (a :: rest) qns) ∧
    leave_Call targetSig c7call = c7res := by
  refine ⟨?_, ?_, rfl⟩
  · intro f qns
    simp [leave_Call, newArgs, shouldFix, posargsShape]
  · intro f a rest qns hkw
    have hshape : posargsShape f (a :: rest) = false := by
      cases hk : a.keyword with
      | none => rw [hk] at hkw; simp at hkw
      | some s => simp [posargsShape, hk]
    simp [leave_Call, newArgs, shouldFix, hshape]

/-- Witness for C7: a call whose first argument carries a keyword is left
unchanged by the rule. -/
theorem claim_C7_witness :
    ((Arg.mk (some "label") EqualFmt.maybeDefault "" (Expr.integer "9")).keyword.isSome
      = true) ∧
    leave_Call targetSig
        (.call (.name "target")
          [Arg.mk (some "label") .maybeDefault "" (.integer "9")] ["hypothesis.target"])
      = .call (.name "target")
          [Arg.mk (some "label") .maybeDefault "" (.integer "9")] ["hypothesis.target"] :=
  ⟨rfl, (claim_C7 targetSig).2.1 (.name "target") _ [] ["hypothesis.target"] rfl⟩

/-- C9: everywhere no rule matched, `refactor` leaves the source unit
untouched — the printed output is byte-identical to the input there (the
parse/print round trip of the collaborator is lossless on unmodified trees). -/
theorem claim_C9 (sigOf : String → List Param) (m : List Expr)
    (h : ∀ e ∈ m, exprClean sigOf false e) :
    refactor sigOf m = m := by
  induction m with
  | nil => rfl
  | cons e rest ih =>
      rw [refactor_cons]
      have he := exprClean_transform sigOf e false (h e (by simp))
      rw [he.1, he.2, ih (fun x hx => h x (by simp [hx]))]

/-- Witness for C9: a whitelisted call whose arguments are already keyworded
appropriately is emitted byte-identical to its source form. -/
theorem claim_C9_witness :
    (∀ e ∈ [c9call], exprClean fractionsSig false e) ∧
    refactor fractionsSig [c9call] = [c9call] := by
  have hclean : ∀ e ∈ [c9call], exprClean fractionsSig false e := by
    intro e he
    have : e = c9call := by simpa using he
    subst this
    refine ⟨rfl, trivial, ⟨⟨?_, trivial⟩, trivial⟩⟩
    intro hfalse
    exact absurd hfalse (by simp [match_qualname, complex_numbers_qualname])
  exact ⟨hclean, claim_C9 fractionsSig [c9call] hclean⟩

/-- C1: for every call site whose single resolved qualified name is in the
Target Registry and which passes the rule's remaining gates (callee not itself
a call, first argument carries no keyword, no more arguments than
descriptors), each positional argument aligned with a keyword-only parameter
is rewritten to carry that parameter's name with the no-whitespace equal sign,
while arguments that already carry a keyword, are starred, or align with a
non-keyword-only parameter are left untouched. -/
theorem claim_C1 (sigOf : String → List Param) (f : Expr) (args : List Arg)
    (qns : List String) (q : String)
    (hq : qns.dedup = [q]) (hreg : q ∈ kwonly_functions)
    (hshape : posargsShape f args = true)
    (harity : args.length ≤ (paramsFor sigOf qns).length)
    (res : List Arg)
    (hres : leave_Call sigOf (.call f args qns) = .call f res qns) :
    res.length = args.length ∧
    ∀ (i : Nat) (hi : i < args.length) (hpi : i < (paramsFor sigOf qns).length)
      (hri : i < res.length),
      ((args.get ⟨i, hi⟩).keyword = none → (args.get ⟨i, hi⟩).star = "" →
        ((paramsFor sigOf qns).get ⟨i, hpi⟩).kind = ParamKind.keywordOnly →
        res.get ⟨i, hri⟩
          = Arg.mk (some ((paramsFor sigOf qns).get ⟨i, hpi⟩).name) assign_nospace
              "" (args.get ⟨i, hi⟩).value) ∧
      (((args.get ⟨i, hi⟩).keyword.isSome = true ∨ (args.get ⟨i, hi⟩).star ≠ ""
          ∨ ((paramsFor sigOf qns).get ⟨i, hpi⟩).kind ≠ ParamKind.keywordOnly) →
        res.get ⟨i, hri⟩ = args.get ⟨i, hi⟩) := by
  have hsf : shouldFix f args qns = true := by
    simp only [shouldFix, hq, Bool.and_eq_true]
    refine ⟨⟨?_, ?_⟩, hshape⟩
    · rfl
    · simp [hreg]
  have hcomp : leave_Call sigOf (.call f args qns)
      = .call f (List.zipWith fixArg (paramsFor sigOf qns) args) qns := by
    simp only [leave_Call, newArgs]
    rw [if_pos hsf,
      if_neg (show ¬ args.length > (paramsFor sigOf qns).length by omega)]
  rw [hcomp] at hres
  injection hres with h31 h32 h33
  subst h32
  constructor
  · rw [List.length_zipWith]
    omega
  · intro i hi hpi hri
    have hget : (List.zipWith fixArg (paramsFor sigOf qns) args).get ⟨i, hri⟩
        = fixArg ((paramsFor sigOf qns).get ⟨i, hpi⟩) (args.get ⟨i, hi⟩) := by
      simp [List.get_eq_getElem, List.getElem_zipWith]
    constructor
    · intro hkw hst hkind
      have hcond : ¬ (((args.get ⟨i, hi⟩).keyword.isSome
          || decide ((args.get ⟨i, hi⟩).star ≠ "")
          || decide (((paramsFor sigOf qns).get ⟨i, hpi⟩).kind
              ≠ ParamKind.keywordOnly)) = true) := by
        simp only [hkw, hst, hkind]
        simp
      rw [hget, fixArg, if_neg hcond, hst]
    · intro hdisj
      have hcond : ((args.get ⟨i, hi⟩).keyword.isSome
          || decide ((args.get ⟨i, hi⟩).star ≠ "")
          || decide (((paramsFor sigOf qns).get ⟨i, hpi⟩).kind
              ≠ ParamKind.keywordOnly)) = true := by
        rcases hdisj with h | h | h <;>
          simp only [List.get_eq_getElem] at h ⊢ <;> simp [h]
      rw [hget, fixArg, if_pos hcond]

/-- Witness for C1: `target(0, 1, 9)` against `(a, b, *, max_denominator)` —
the third argument is rewritten to `max_denominator=9` with the no-space equal
sign. -/
theorem claim_C1_witness :
    fracRes.length = fracArgs.length ∧
    ((fracArgs.get ⟨2, by decide⟩).keyword = none →
      (fracArgs.get ⟨2, by decide⟩).star = "" →
      ((paramsFor fractionsSig fracQns).get ⟨2, by decide⟩).kind
        = ParamKind.keywordOnly →
      fracRes.get ⟨2, by decide⟩
        = Arg.mk (some ((paramsFor fractionsSig fracQns).get ⟨2, by decide⟩).name)
            assign_nospace "" (fracArgs.get ⟨2, by decide⟩).value) := by
  have h := claim_C1 fractionsSig (.name "target") fracArgs fracQns
    "hypothesis.strategies.fractions" (by decide) (by decide) (by decide)
    (by decide) fracRes rfl
  exact ⟨h.1, (h.2 2 (by decide) (by decide) (by decide)).1⟩

theorem leaf_transformA (sigOf : String → List Param) (e : Expr)
    (h : leafExpr e = true) : transformA sigOf e = e := by
  cases e with
  | call f as qns => simp [leafExpr] at h
  | name s => rfl
  | integer s => rfl
  | atom s => rfl

theorem leaf_transformB (ins : Bool) (e : Expr) (h : leafExpr e = true) :
    transformB ins e = e := by
  cases e with
  | call f as qns => simp [leafExpr] at h
  | name s => rfl
  | integer s => rfl
  | atom s => rfl

theorem leafArgs_transformArgsA (sigOf : String → List Param) (as : List Arg)
    (h : ∀ a ∈ as, leafExpr a.value = true) : transformArgsA sigOf as = as := by
  induction as with
  | nil => rfl
  | cons a rest ih =>
    cases a with
    | mk kw eq st v =>
      simp only [transformArgsA, transformArgA]
      rw [leaf_transformA sigOf v (h (Arg.mk kw eq st v) (by simp)),
        ih (fun x hx => h x (by simp [hx]))]

theorem leafArgs_transformArgsB (as : List Arg)
    (h : ∀ a ∈ as, leafExpr a.value = true) : transformArgsB false as = as := by
  induction as with
  | nil => rfl
  | cons a rest ih =>
    cases a with
    | mk kw eq st v =>
      simp only [transformArgsB, transformArgB, if_neg (by simp : ¬ (false = true))]
      rw [leaf_transformB false v (h (Arg.mk kw eq st v) (by simp)),
        ih (fun x hx => h x (by simp [hx]))]

/-- C3 counterexample: an ambiguously-resolved call (two distinct qualified
names) is not always left unchanged by `refactor` — nested inside a call
resolved to `complex_numbers`, its `min_magnitude=None` argument is rewritten
by the sentinel rule, whose `call_if_inside` matcher looks at ancestors. -/
theorem claim_C3_counterexample :
    2 ≤ ambQns.dedup.length ∧
    refactor emptySig [c3outer] = [c3outerChanged] ∧
    c3innerChanged ≠ c3inner ∧
    c3outerChanged ≠ c3outer := by
  refine ⟨by decide, rfl, ?_, ?_⟩ <;>
    simp [c3inner, c3innerChanged, c3outer, c3outerChanged]

/-- C3 (amended): a call whose target resolves to two or more distinct
qualified names is never transformed on its own account: the
positional-to-keyword rule leaves it unchanged, and its own resolution never
satisfies the sentinel rule's matcher; if moreover it contains no nested call
and sits at top level (so no enclosing call can enable the sentinel rule),
`refactor` leaves it entirely unchanged. -/
theorem claim_C3 (sigOf : String → List Param) (f : Expr) (args : List Arg)
    (qns : List String) (h2 : 2 ≤ qns.dedup.length) :
    leave_Call sigOf (.call f args qns) = .call f args qns ∧
    match_qualname complex_numbers_qualname qns = false ∧
    (leafExpr f = true → (∀ a ∈ args, leafExpr a.value = true) →
      refactor sigOf [.call f args qns] = [.call f args qns]) := by
  have hlen : qns.dedup.length ≠ 1 := by omega
  have hsf : shouldFix f args qns = false := by
    simp only [shouldFix]
    have hbeq : (qns.dedup.length == 1) = false := by
      simp [hlen]
    rw [hbeq]
    simp
  have hmatch : match_qualname complex_numbers_qualname qns = false := by
    rcases hd : qns.dedup with _ | ⟨d0, _ | ⟨d1, dt⟩⟩
    · rw [hd] at h2; simp at h2
    · rw [hd] at h2; simp at h2
    · have hnd := List.nodup_dedup qns
      rw [hd] at hnd
      have hne : d0 ≠ d1 := by
        rcases List.nodup_cons.mp hnd with ⟨hnotin, _⟩
        intro hEq
        exact hnotin (by rw [hEq]; simp)
      have hm0 : d0 ∈ qns := List.mem_dedup.mp (by rw [hd]; simp)
      have hm1 : d1 ∈ qns := List.mem_dedup.mp (by rw [hd]; simp)
      by_contra hmt
      rw [Bool.not_eq_false] at hmt
      simp only [match_qualname, List.all_eq_true] at hmt
      have e0 : d0 = complex_numbers_qualname := by simpa using hmt d0 hm0
      have e1 : d1 = complex_numbers_qualname := by simpa using hmt d1 hm1
      exact hne (e0.trans e1.symm)
  refine ⟨by simp [leave_Call, newArgs, hsf], hmatch, ?_⟩
  intro hf hargs
  have hA : transformA sigOf (.call f args qns) = .call f args qns := by
    simp only [transformA, leave_Call]
    rw [leaf_transformA sigOf f hf, leafArgs_transformArgsA sigOf args hargs]
    simp [newArgs, hsf]
  have hB : transformB false (.call f args qns) = .call f args qns := by
    simp only [transformB, hmatch, Bool.or_false]
    rw [leaf_transformB false f hf, leafArgs_transformArgsB args hargs]
  rw [refactor_cons, hA, hB]
  rfl

/-- Witness for C3: a simple top-level ambiguous call is left unchanged. -/
theorem claim_C3_witness :
    2 ≤ ambQns.dedup.length ∧
    (leave_Call emptySig (.call (.name "amb")
        [Arg.mk none .maybeDefault "" (.integer "1")] ambQns)
      = .call (.name "amb") [Arg.mk none .maybeDefault "" (.integer "1")] ambQns ∧
     match_qualname complex_numbers_qualname ambQns = false ∧
     (leafExpr (Expr.name "amb") = true →
      (∀ a ∈ [Arg.mk none .maybeDefault "" (.integer "1")], leafExpr a.value = true) →
      refactor emptySig
          [.call (.name "amb") [Arg.mk none .maybeDefault "" (.integer "1")] ambQns]
        = [.call (.name "amb")
            [Arg.mk none .maybeDefault "" (.integer "1")] ambQns])) :=
  ⟨by decide, claim_C3 emptySig (.name "amb")
    [Arg.mk none .maybeDefault "" (.integer "1")] ambQns (by decide)⟩

/-- C6: for `hypothesis.strategies.floats` — the one target whose keyword-only
parameter `allow_subnormal` is declared out of positional sequence — that
parameter is excluded from the descriptor list before zipping, so positional
arguments align with exactly the descriptors of the old signature (the
signature without `allow_subnormal`); without the exclusion, every descriptor
from the insertion point on sits one index later in the unfiltered list. -/
theorem claim_C6 (sigOf : String → List Param) (f : Expr) (args : List Arg)
    (pre post : List Param)
    (hsig : sigOf "hypothesis.strategies.floats"
      = pre ++ ⟨"allow_subnormal", ParamKind.keywordOnly⟩ :: post)
    (hpre : ∀ p ∈ pre, p.name ≠ "allow_subnormal")
    (hpost : ∀ p ∈ post, p.name ≠ "allow_subnormal") :
    paramsFor sigOf ["hypothesis.strategies.floats"] = pre ++ post ∧
    (posargsShape f args = true → args.length ≤ (pre ++ post).length →
      leave_Call sigOf (.call f args ["hypothesis.strategies.floats"])
        = .call f (List.zipWith fixArg (pre ++ post) args)
            ["hypothesis.strategies.floats"]) ∧
    (∀ i : Nat,
      (sigOf "hypothesis.strategies.floats")[pre.length + 1 + i]?
        = (pre ++ post)[pre.length + i]?) := by
  have hd : (["hypothesis.strategies.floats"] : List String).dedup
      = ["hypothesis.strategies.floats"] := by decide
  have hparams : paramsFor sigOf ["hypothesis.strategies.floats"] = pre ++ post := by
    simp only [paramsFor, hd]
    rw [if_pos trivial]
    simp only [List.headD_cons, hsig, List.filter_append]
    rw [List.filter_cons_of_neg (by simp)]
    rw [List.filter_eq_self.mpr (by intro p hp; simpa using hpre p hp),
      List.filter_eq_self.mpr (by intro p hp; simpa using hpost p hp)]
  refine ⟨hparams, ?_, ?_⟩
  · intro hshape harity
    have hsf : shouldFix f args ["hypothesis.strategies.floats"] = true := by
      simp only [shouldFix, hd, Bool.and_eq_true]
      refine ⟨⟨rfl, ?_⟩, hshape⟩
      simp [kwonly_functions]
    simp only [leave_Call, newArgs, hparams]
    rw [if_pos hsf, if_neg (show ¬ args.length > (pre ++ post).length by omega)]
  · intro i
    rw [hsig]
    rw [List.getElem?_append_right (by omega),
      List.getElem?_append_right (by omega : pre.length ≤ pre.length + i)]
    have e1 : pre.length + 1 + i - pre.length = i + 1 := by omega
    have e2 : pre.length + i - pre.length = i := by omega
    rw [e1, e2, List.getElem?_cons_succ]

/-- Witness for C6 at the real `floats` signature. -/
theorem claim_C6_witness :
    (floatsSig "hypothesis.strategies.floats"
        = preFloats ++ ⟨"allow_subnormal", ParamKind.keywordOnly⟩ :: postFloats) ∧
    (paramsFor floatsSig ["hypothesis.strategies.floats"] = preFloats ++ postFloats ∧
     (posargsShape (.name "floats") floatsArgs = true →
        floatsArgs.length ≤ (preFloats ++ postFloats).length →
        leave_Call floatsSig
            (.call (.name "floats") floatsArgs ["hypothesis.strategies.floats"])
          = .call (.name "floats")
              (List.zipWith fixArg (preFloats ++ postFloats) floatsArgs)
              ["hypothesis.strategies.floats"]) ∧
     (∀ i : Nat,
        (floatsSig "hypothesis.strategies.floats")[preFloats.length + 1 + i]?
          = (preFloats ++ postFloats)[preFloats.length + i]?)) :=
  ⟨rfl, claim_C6 floatsSig (.name "floats") floatsArgs preFloats postFloats rfl
    (by decide) (by decide)⟩

/-- The fifth positional argument of `floats(0, 1, None, False, 32)` aligns
with `width`, not `allow_subnormal`. -/
example :
    leave_Call floatsSig
        (.call (.name "floats") floatsArgs ["hypothesis.strategies.floats"])
      = .call (.name "floats")
          [Arg.mk none .maybeDefault "" (.integer "0"),
           Arg.mk none .maybeDefault "" (.integer "1"),
           Arg.mk (some "allow_nan") assign_nospace "" (.name "None"),
           Arg.mk (some "allow_infinity") assign_nospace "" (.name "False"),
           Arg.mk (some "width") assign_nospace "" (.integer "32")]
          ["hypothesis.strategies.floats"] := by
  rfl

example :
    refactor fractionsSig
      [Expr.call (.name "target")
        [Arg.mk none .maybeDefault "" (.integer "0"),
         Arg.mk none .maybeDefault "" (.integer "1"),
         Arg.mk none .maybeDefault "" (.integer "9")]
        ["hypothesis.strategies.fractions"]]
    = [Expr.call (.name "target")
        [Arg.mk none .maybeDefault "" (.integer "0"),
         Arg.mk none .maybeDefault "" (.integer "1"),
         Arg.mk (some "max_denominator") assign_nospace "" (.integer "9")]
        ["hypothesis.strategies.fractions"]] := by
  rfl

example : Expr.name "None" ≠ Expr.integer "0" := by simp

example :
    Expr.call (.name "f") [Arg.mk (some "min_magnitude") .maybeDefault "" (.name "None")] []
    ≠ Expr.call (.name "f") [Arg.mk (some "min_magnitude") .maybeDefault "" (.integer "0")] [] := by
  simp

end Codemods
